import Mathlib

/-!
Verification of the feather network core: a shallow embedding of the
wire-protocol primitive codec (`src/core/src/network/mctypes.rs`), the
entity-metadata codec (`src/core/src/entitymeta.rs`) and the connection
pipeline (`src/server/src/io/`), together with proofs settling the
specification's claims about them.

Machine integers are embedded as `Int`/`Nat` with explicit two's-complement
wrapping (`% 2^w`); byte buffers are `List Nat` with each element a byte
value below 256; fallible reads return `Except`; the one source loop that
can fail to terminate (`put_var_int` on a negative argument) is given
explicit fuel and returns `Option`.
-/

namespace Feather

/-- Interpretation of a bit pattern (a natural number) as an unsigned value
reduced to 32 bits, i.e. the `u32` cast. -/
def u32OfNat (n : Nat) : Nat := n % 2 ^ 32

/-- Two's-complement interpretation of a 32-bit pattern, i.e. the value of
the `i32` whose bits are the low 32 bits of `n`. -/
def toI32 (n : Nat) : Int :=
  if n % 2 ^ 32 < 2 ^ 31 then ((n % 2 ^ 32 : Nat) : Int)
  else ((n % 2 ^ 32 : Nat) : Int) - 2 ^ 32

/-- Two's-complement interpretation of a 64-bit pattern as an `i64` value. -/
def toI64 (n : Nat) : Int :=
  if n % 2 ^ 64 < 2 ^ 63 then ((n % 2 ^ 64 : Nat) : Int)
  else ((n % 2 ^ 64 : Nat) : Int) - 2 ^ 64

/-- The 64-bit pattern of an integer value, i.e. the `as u64` cast
(wrapping two's complement). -/
def u64OfInt (v : Int) : Nat := (v % (2 ^ 64 : Int)).toNat

/-- The 32-bit pattern of an integer value, i.e. the `as u32` cast. -/
def u32OfInt (v : Int) : Nat := (v % (2 ^ 32 : Int)).toNat

/-- The `as i32` cast of an integer value: truncate to the low 32 bits and
reinterpret as two's complement. -/
def asI32 (v : Int) : Int := toI32 (u32OfInt v)

/-- The error type `McTypeError` of `mctypes.rs`, with the payloads the
source constructors carry (the `bytes::TryGetError` payload of
`NotEnoughBytes` and the `nbt::Error` payload of `Nbt` carry no information
used here and are dropped). -/
inductive McTypeError
  | varIntTooBig (n : Nat)
  | stringTooLong (len max : Nat)
  | notEnoughBytes
  | nbt
  | invalidBoolean (v : Nat)
  | invalidItemId (id : Int)
deriving DecidableEq, Repr

/-- Loop body of `put_var_int` in `mctypes.rs`, with explicit fuel.  Each
iteration takes the low 7 bits of `x` as the next byte, arithmetic-shifts
`x` right by 7 (`x >>= 7` on `i32`), sets the continuation bit `0x80` if
`x` is not yet zero, and stops once `x` is zero.  On an `i32` the shift is
arithmetic, so a negative `x` converges to `-1` and the loop never exits;
the fuel makes that observable as `none`. -/
def putVarIntLoop : Nat → Int → Option (List Nat)
  | 0, _ => none
  | fuel + 1, x =>
    let temp : Nat := (x % 128).toNat
    let x' : Int := x >>> (7 : Nat)
    if x' = 0 then some [temp]
    else (putVarIntLoop fuel x').map (fun rest => (temp ||| 128) :: rest)

/-- The encoder `put_var_int` of `mctypes.rs`.  Returns the bytes written;
`none` models the non-terminating loop (the fuel 64 is far more than the
five iterations any terminating run of the source loop performs on an
`i32`). -/
def put_var_int (x : Int) : Option (List Nat) := putVarIntLoop 64 x

/-- Loop of `try_get_var_int` in `mctypes.rs`.  `numRead` bytes have been
consumed so far and `result` is the 32-bit accumulator pattern.  Each step
reads a byte (`NotEnoughBytes` if the cursor is exhausted), ORs its low 7
bits shifted by `7 * num_read` into the `i32` accumulator (Rust masks the
shift amount to the 5 low bits and the shifted-out bits of the result are
discarded, hence the two `%` reductions), then errors with `VarIntTooBig`
once a sixth byte has been read, and otherwise stops when the continuation
bit `0x80` of the byte just read is clear. -/
def tryGetVarIntLoop (numRead : Nat) (result : Nat) : List Nat → Except McTypeError (Int × List Nat)
  | [] => .error .notEnoughBytes
  | read :: rest =>
    let value : Nat := read &&& 127
    let result : Nat := result ||| (value <<< (7 * numRead % 32) % 2 ^ 32)
    let numRead : Nat := numRead + 1
    if 5 < numRead then .error (.varIntTooBig numRead)
    else if read &&& 128 = 0 then .ok (toI32 result, rest)
    else tryGetVarIntLoop numRead result rest

/-- The decoder `try_get_var_int` of `mctypes.rs`, on a byte cursor
modelled as the list of remaining bytes. -/
def try_get_var_int (bs : List Nat) : Except McTypeError (Int × List Nat) :=
  tryGetVarIntLoop 0 0 bs

/-- The function `varint_needed_bytes` of `mctypes.rs`, exactly as written:
for non-zero `x` it folds over `i = 31, 30, ..., 0` (the source's
`(0..32).rev()`), overwriting `highest_bit` with `i` whenever
`x & (1 << i) > 0` as a signed comparison on `i32` (so bit 31 never
qualifies, and the final value is the lowest qualifying bit), then returns
`(highest_bit + 6) / 7`. -/
def varint_needed_bytes (x : Int) : Nat :=
  if x = 0 then 1
  else
    let highest_bit :=
      (List.range 32).reverse.foldl
        (fun hb i => if 0 < toI32 (u32OfInt x &&& 2 ^ i) then i else hb) 0
    (highest_bit + 6) / 7

/-- Big-endian bytes of the low `k` bytes of the pattern `v`, most
significant byte first; this is how `put_u64`, `put_f32` and `put_uuid`
lay values into the buffer. -/
def beBytes : Nat → Nat → List Nat
  | 0, _ => []
  | k + 1, v => (v / 2 ^ (8 * k)) % 256 :: beBytes k v

/-- Big-endian parse of a byte list back into a pattern, most significant
byte first; this is how `try_get_i64` assembles its value. -/
def beParse (bs : List Nat) : Nat := bs.foldl (fun acc b => acc * 256 + b) 0

/-- The reader `try_get_i64` of the `bytes` crate: eight big-endian bytes
interpreted as a two's-complement `i64`, or `NotEnoughBytes`. -/
def try_get_i64 (bs : List Nat) : Except McTypeError (Int × List Nat) :=
  if 8 ≤ bs.length then .ok (toI64 (beParse (bs.take 8)), bs.drop 8)
  else .error .notEnoughBytes

/-- The `BlockPosition` struct of `feather_core::world`, with its three
`i32` coordinate fields. -/
structure BlockPosition where
  x : Int
  y : Int
  z : Int
deriving DecidableEq, Repr

/-- The packed `u64` computed by `put_block_position` in `mctypes.rs`:
`((x as u64 & 0x03FF_FFFF) << 38) | ((y as u64 & 0xFFF) << 26) |
(z as u64 & 0x03FF_FFFF)`. -/
def blockPosWord (p : BlockPosition) : Nat :=
  ((u64OfInt p.x &&& 0x03FFFFFF) <<< 38) |||
    ((u64OfInt p.y &&& 0xFFF) <<< 26) |||
    (u64OfInt p.z &&& 0x03FFFFFF)

/-- The encoder `put_block_position` of `mctypes.rs`: the packed word,
written with `put_u64` as eight big-endian bytes. -/
def put_block_position (p : BlockPosition) : List Nat := beBytes 8 (blockPosWord p)

/-- The decoder `try_get_block_position` of `mctypes.rs`: reads an `i64`
`val`, then `x = val >> 38` (arithmetic shift), `y = (val >> 26) & 0xFFF`
(the AND keeps the low 12 bits of the two's-complement pattern, i.e. the
value modulo 2^12, with no sign extension), and `z = val << 38 >> 38`
(the `i64` left shift wraps modulo 2^64, then an arithmetic right shift
sign-extends), each result cast `as i32`. -/
def try_get_block_position (bs : List Nat) : Except McTypeError (BlockPosition × List Nat) := do
  let (val, rest) ← try_get_i64 bs
  let x : Int := val >>> (38 : Nat)
  let y : Int := (val >>> (26 : Nat)) % 4096
  let z : Int := toI64 (u64OfInt (val * 2 ^ 38)) >>> (38 : Nat)
  pure (⟨asI32 x, asI32 y, asI32 z⟩, rest)

/-- Low seven bits of a byte: the source's `read & 0b0111_1111`. -/
lemma land_127_eq_mod (b : Nat) : b &&& 127 = b % 128 :=
  Nat.and_pow_two_sub_one_eq_mod b 7

set_option maxRecDepth 4096 in
/-- Continuation-bit test on a byte: the source's `read & 0b1000_0000 == 0`
holds exactly when the byte is below 128. -/
lemma land_128_iff : ∀ b < 256, (b &&& 128 = 0 ↔ b < 128) := by decide

/-- Arithmetic right shift of a negative integer stays negative. -/
lemma shiftRight_neg_of_neg {x : Int} (h : x < 0) (n : Nat) : x >>> n < 0 := by
  rcases x with p | p
  · exact absurd h (by exact Int.not_lt.mpr (Int.ofNat_nonneg p))
  · have : Int.negSucc p >>> n = Int.negSucc (p >>> n) := rfl
    rw [this]
    exact Int.negSucc_lt_zero _

/-- On a negative argument the `put_var_int` loop never reaches zero (the
shift `x >>= 7` on `i32` is arithmetic), so it runs out of any fuel. -/
lemma putVarIntLoop_neg_eq_none : ∀ (fuel : Nat) (x : Int), x < 0 → putVarIntLoop fuel x = none := by
  intro fuel
  induction fuel with
  | zero => intro x _; rfl
  | succ f ih =>
    intro x hx
    have hx' : x >>> (7 : Nat) < 0 := shiftRight_neg_of_neg hx 7
    have hne : ¬(x >>> (7 : Nat) = 0) := by omega
    simp only [putVarIntLoop, hne, if_false, ih _ hx']
    rfl

/-- Characterization of the `try_get_var_int` loop from any reached state:
`numRead = k` bytes already consumed (`k ≤ 5`) and any accumulator.  It
fails with `VarIntTooBig 6` exactly when the remaining five-minus-`k`
positions all carry the continuation bit and one more byte is available to
be read; it fails with `NotEnoughBytes` exactly when the cursor runs out
while every remaining byte carries the continuation bit; and no other
error is ever produced. -/
lemma tryGetVarIntLoop_char :
    ∀ (bs : List Nat) (k res : Nat), k ≤ 5 → (∀ b ∈ bs, b < 256) →
    ((tryGetVarIntLoop k res bs = .error (.varIntTooBig 6)) ↔
      (6 ≤ k + bs.length ∧ ∀ i, i + k < 5 → 128 ≤ bs.getD i 0)) ∧
    ((tryGetVarIntLoop k res bs = .error .notEnoughBytes) ↔
      (k + bs.length ≤ 5 ∧ ∀ b ∈ bs, 128 ≤ b)) ∧
    (∀ e, tryGetVarIntLoop k res bs = .error e →
      e = .varIntTooBig 6 ∨ e = .notEnoughBytes) := by
  intro bs
  induction bs with
  | nil =>
    intro k res hk _
    refine ⟨?_, ?_, ?_⟩
    · simp only [tryGetVarIntLoop]
      constructor
      · intro h; cases h
      · intro ⟨h6, _⟩; simp at h6; omega
    · simp only [tryGetVarIntLoop, List.length_nil]
      constructor
      · intro _; exact ⟨by omega, by intro b hb; cases hb⟩
      · intro _; trivial
    · intro e he
      simp only [tryGetVarIntLoop] at he
      right; cases he; rfl
  | cons b rest ih =>
    intro k res hk hbs
    have hb : b < 256 := hbs b (by simp)
    by_cases hk5 : 5 < k + 1
    · have hkeq : k = 5 := by omega
      subst hkeq
      refine ⟨?_, ?_, ?_⟩
      · simp only [tryGetVarIntLoop, hk5, if_true]
        constructor
        · intro _
          exact ⟨by simp; omega, by intro i hi; omega⟩
        · intro _; trivial
      · simp only [tryGetVarIntLoop, hk5, if_true]
        constructor
        · intro h; cases h
        · intro ⟨hl, _⟩; simp at hl
      · intro e he
        simp only [tryGetVarIntLoop, hk5, if_true] at he
        left; cases he; rfl
    · have hk4 : k ≤ 4 := by omega
      by_cases hcont : b &&& 128 = 0
      · have hblt : b < 128 := (land_128_iff b hb).mp hcont
        refine ⟨?_, ?_, ?_⟩
        · simp only [tryGetVarIntLoop, hk5, if_false, hcont, if_true]
          constructor
          · intro h; cases h
          · intro ⟨_, hall⟩
            have := hall 0 (by omega)
            simp at this; omega
        · simp only [tryGetVarIntLoop, hk5, if_false, hcont, if_true]
          constructor
          · intro h; cases h
          · intro ⟨_, hall⟩
            have := hall b (by simp)
            omega
        · intro e he
          simp only [tryGetVarIntLoop, hk5, if_false, hcont, if_true] at he
          cases he
      · have hbge : 128 ≤ b := by
          rcases Nat.lt_or_ge b 128 with h | h
          · exact absurd ((land_128_iff b hb).mpr h) hcont
          · exact h
        have hrest : ∀ x ∈ rest, x < 256 := fun x hx => hbs x (by simp [hx])
        obtain ⟨ih1, ih2, ih3⟩ :=
          ih (k + 1) (res ||| ((b &&& 127) <<< (7 * k % 32) % 2 ^ 32)) (by omega) hrest
        have hunf : tryGetVarIntLoop k res (b :: rest) =
            tryGetVarIntLoop (k + 1) (res ||| ((b &&& 127) <<< (7 * k % 32) % 2 ^ 32)) rest := by
          simp only [tryGetVarIntLoop, hk5, if_false, hcont]
        refine ⟨?_, ?_, ?_⟩
        · rw [hunf, ih1]
          constructor
          · intro ⟨h6, hall⟩
            refine ⟨by simp; omega, ?_⟩
            intro i hi
            cases i with
            | zero => simpa using hbge
            | succ j =>
              have := hall j (by omega)
              simpa using this
          · intro ⟨h6, hall⟩
            refine ⟨by simp at h6 ⊢; omega, ?_⟩
            intro i hi
            have := hall (i + 1) (by omega)
            simpa using this
        · rw [hunf, ih2]
          constructor
          · intro ⟨hl, hall⟩
            refine ⟨by simp; omega, ?_⟩
            intro x hx
            rcases List.mem_cons.mp hx with h | h
            · omega
            · exact hall x h
          · intro ⟨hl, hall⟩
            exact ⟨by simp at hl; omega, fun x hx => hall x (by simp [hx])⟩
        · intro e he
          rw [hunf] at he
          exact ih3 e he

/-- C2: for every input byte sequence, `try_get_var_int` returns a typed
result and, in the total embedding, cannot panic.  It fails with
`VarIntTooBig` exactly when the first five bytes all carry the continuation
bit and a sixth byte is present to be read (the source consumes the sixth
byte and then rejects, whatever that byte holds); it fails with
`NotEnoughBytes` exactly when the cursor is exhausted mid-read, i.e. every
available byte (at most five of them) carries the continuation bit — this
branch also covers the input of exactly five continuation bytes, where the
failed sixth read reports exhaustion; in every other case it returns a
decoded integer. -/
theorem try_get_var_int_trichotomy (bs : List Nat) (hbs : ∀ b ∈ bs, b < 256) :
    (try_get_var_int bs = .error (.varIntTooBig 6) ↔
      6 ≤ bs.length ∧ ∀ i, i < 5 → 128 ≤ bs.getD i 0) ∧
    (try_get_var_int bs = .error .notEnoughBytes ↔
      bs.length ≤ 5 ∧ ∀ b ∈ bs, 128 ≤ b) ∧
    (¬(6 ≤ bs.length ∧ ∀ i, i < 5 → 128 ≤ bs.getD i 0) →
     ¬(bs.length ≤ 5 ∧ ∀ b ∈ bs, 128 ≤ b) →
      ∃ v rest, try_get_var_int bs = .ok (v, rest)) := by
  obtain ⟨h1, h2, h3⟩ := tryGetVarIntLoop_char bs 0 0 (by omega) hbs
  refine ⟨by simpa using h1, by simpa using h2, ?_⟩
  intro hn1 hn2
  cases hres : try_get_var_int bs with
  | ok v => exact ⟨v.1, v.2, rfl⟩
  | error e =>
    rcases h3 e hres with he | he
    · subst he
      exact absurd (by simpa using h1.mp hres) hn1
    · subst he
      exact absurd (by simpa using h2.mp hres) hn2

/-- Witness for the VarInt decode trichotomy: five continuation bytes
followed by a sixth byte are rejected as too big. -/
theorem try_get_var_int_trichotomy_witness :
    try_get_var_int [128, 128, 128, 128, 128, 7] = .error (.varIntTooBig 6) :=
  ((try_get_var_int_trichotomy [128, 128, 128, 128, 128, 7] (by decide)).1).mpr (by decide)

set_option maxRecDepth 8192 in
/-- C1: the claimed VarInt encode/decode round-trip with minimal byte count
fails on the code, and the code contradicts its own documentation.
`varint_needed_bytes` returns 0 for the value 1 (its doc promises the
number of bytes needed to write the VarInt, which the encoder shows is 1)
and 1 for the value 300 (encoded in 2 bytes); and for every negative
value, e.g. -1, the `put_var_int` loop never terminates (the `i32` shift
`x >>= 7` is arithmetic, so `x` converges to -1, never 0), so no 1-to-5
byte encoding is produced at all. -/
theorem varint_minimal_encoding_bug :
    varint_needed_bytes 1 = 0 ∧ put_var_int 1 = some [1] ∧
    varint_needed_bytes 300 = 1 ∧ put_var_int 300 = some [172, 2] ∧
    ∀ fuel, putVarIntLoop fuel (-1) = none :=
  ⟨by decide, by decide, by decide, by decide,
   fun fuel => putVarIntLoop_neg_eq_none fuel (-1) (by omega)⟩

/-- A `beBytes k` serialization is exactly `k` bytes long. -/
lemma beBytes_length : ∀ (k v : Nat), (beBytes k v).length = k := by
  intro k
  induction k with
  | zero => intro v; rfl
  | succ n ih => intro v; simp [beBytes, ih]

/-- Folding the big-endian bytes of `v` onto an accumulator recovers the
accumulator shifted past `v`'s low bytes plus those bytes. -/
lemma beParse_beBytes_aux :
    ∀ (k v acc : Nat),
      (beBytes k v).foldl (fun acc b => acc * 256 + b) acc = acc * 2 ^ (8 * k) + v % 2 ^ (8 * k) := by
  intro k
  induction k with
  | zero => intro v acc; simp [beBytes, Nat.mod_one]
  | succ n ih =>
    intro v acc
    have h28 : (2 : Nat) ^ (8 * (n + 1)) = 2 ^ (8 * n) * 256 := by
      rw [show 8 * (n + 1) = 8 * n + 8 by ring, pow_add]
      norm_num
    have hmm : v % (2 ^ (8 * n) * 256) = v % 2 ^ (8 * n) + 2 ^ (8 * n) * (v / 2 ^ (8 * n) % 256) :=
      Nat.mod_mul
    simp only [beBytes, List.foldl_cons, ih, h28, hmm]
    ring

/-- Parsing the eight big-endian bytes of a 64-bit pattern recovers it. -/
lemma beParse_beBytes {v : Nat} (h : v < 2 ^ 64) : beParse (beBytes 8 v) = v := by
  have haux := beParse_beBytes_aux 8 v 0
  simp only [beParse] at haux ⊢
  omega

/-- Arithmetic right shift on `Int` is Euclidean division by the
corresponding power of two (both floor for a positive divisor). -/
lemma int_shiftRight_eq_ediv (a : Int) (n : Nat) : a >>> n = a / ((2 : Int) ^ n) := by
  have h2 : ((2 : Int) ^ n) = Int.ofNat (2 ^ n) := by exact_mod_cast rfl
  obtain ⟨m, hm⟩ : ∃ m, (2 : Nat) ^ n = m + 1 :=
    ⟨2 ^ n - 1, by have := Nat.one_le_two_pow (n := n); omega⟩
  rcases a with p | p
  · show Int.ofNat (p >>> n) = _
    rw [Nat.shiftRight_eq_div_pow, h2]
    rfl
  · show Int.negSucc (p >>> n) = _
    rw [Nat.shiftRight_eq_div_pow, h2, hm]
    rfl

/-- The `as i32` cast is the identity on values already in `i32` range. -/
lemma asI32_small {v : Int} (h1 : -(2 ^ 31) ≤ v) (h2 : v < 2 ^ 31) : asI32 v = v := by
  unfold asI32 toI32 u32OfInt
  have hnn : 0 ≤ v % (2 ^ 32 : Int) := Int.emod_nonneg v (by norm_num)
  have hlt : v % (2 ^ 32 : Int) < 2 ^ 32 := Int.emod_lt_of_pos v (by norm_num)
  have hcast : (((v % (2 ^ 32 : Int)).toNat : Nat) : Int) = v % 2 ^ 32 := Int.toNat_of_nonneg hnn
  have hmod : v % (2 ^ 32 : Int) = v ∨ v % (2 ^ 32 : Int) = v + 2 ^ 32 := by omega
  split
  · next hsmall =>
    rcases hmod with hm | hm <;> omega
  · next hbig =>
    push_cast at hbig ⊢
    rcases hmod with hm | hm <;> omega

/-- Masking the `u64` pattern of `x` to its low `k` bits (for `k` at most
64) yields `x` modulo `2^k`. -/
lemma u64OfInt_mask (x : Int) {k : Nat} (hk : k ≤ 64) :
    u64OfInt x % 2 ^ k = (x % (2 : Int) ^ k).toNat := by
  unfold u64OfInt
  obtain ⟨m, hm⟩ : ∃ m : Nat, x % (2 : Int) ^ 64 = (m : Int) :=
    ⟨(x % (2 : Int) ^ 64).toNat, (Int.toNat_of_nonneg (Int.emod_nonneg x (by positivity))).symm⟩
  have hdvd : ((2 : Int) ^ k) ∣ (2 : Int) ^ 64 := pow_dvd_pow 2 hk
  have h1 : x % (2 : Int) ^ k = (m : Int) % (2 : Int) ^ k := by
    rw [← Int.emod_emod_of_dvd x hdvd, hm]
  have h2 : ((2 : Int) ^ k) = ((2 ^ k : Nat) : Int) := by push_cast; ring
  rw [hm, h1, h2, Int.toNat_natCast, ← Int.ofNat_emod, Int.toNat_natCast]

/-- The packed position word in additive form: the three masked fields
occupy disjoint bit ranges, so the ORs are sums. -/
lemma blockPosWord_eq (x y z : Int) :
    blockPosWord ⟨x, y, z⟩ =
      (x % (2 : Int) ^ 26).toNat * 2 ^ 38 + (y % (2 : Int) ^ 12).toNat * 2 ^ 26
        + (z % (2 : Int) ^ 26).toNat := by
  have hxa : u64OfInt x &&& 0x03FFFFFF = (x % (2 : Int) ^ 26).toNat := by
    have h1 : (0x03FFFFFF : Nat) = 2 ^ 26 - 1 := by norm_num
    rw [h1, Nat.and_pow_two_sub_one_eq_mod, u64OfInt_mask x (by norm_num)]
  have hyb : u64OfInt y &&& 0xFFF = (y % (2 : Int) ^ 12).toNat := by
    have h1 : (0xFFF : Nat) = 2 ^ 12 - 1 := by norm_num
    rw [h1, Nat.and_pow_two_sub_one_eq_mod, u64OfInt_mask y (by norm_num)]
  have hzc : u64OfInt z &&& 0x03FFFFFF = (z % (2 : Int) ^ 26).toNat := by
    have h1 : (0x03FFFFFF : Nat) = 2 ^ 26 - 1 := by norm_num
    rw [h1, Nat.and_pow_two_sub_one_eq_mod, u64OfInt_mask z (by norm_num)]
  set a := (x % (2 : Int) ^ 26).toNat with hadef
  set b := (y % (2 : Int) ^ 12).toNat with hbdef
  set c := (z % (2 : Int) ^ 26).toNat with hcdef
  have ha : a < 2 ^ 26 := by
    have h1 : x % (2 : Int) ^ 26 < 2 ^ 26 := Int.emod_lt_of_pos x (by positivity)
    have h2 : 0 ≤ x % (2 : Int) ^ 26 := Int.emod_nonneg x (by positivity)
    omega
  have hb : b < 2 ^ 12 := by
    have h1 : y % (2 : Int) ^ 12 < 2 ^ 12 := Int.emod_lt_of_pos y (by positivity)
    have h2 : 0 ≤ y % (2 : Int) ^ 12 := Int.emod_nonneg y (by positivity)
    omega
  have hc : c < 2 ^ 26 := by
    have h1 : z % (2 : Int) ^ 26 < 2 ^ 26 := Int.emod_lt_of_pos z (by positivity)
    have h2 : 0 ≤ z % (2 : Int) ^ 26 := Int.emod_nonneg z (by positivity)
    omega
  show (u64OfInt x &&& 0x03FFFFFF) <<< 38 ||| (u64OfInt y &&& 0xFFF) <<< 26 |||
      (u64OfInt z &&& 0x03FFFFFF) = a * 2 ^ 38 + b * 2 ^ 26 + c
  rw [hxa, hyb, hzc, Nat.shiftLeft_eq, Nat.shiftLeft_eq]
  have h1 : a * 2 ^ 38 ||| b * 2 ^ 26 = a * 2 ^ 38 + b * 2 ^ 26 := by
    have hlt : b * 2 ^ 26 < 2 ^ 38 := by omega
    calc a * 2 ^ 38 ||| b * 2 ^ 26 = 2 ^ 38 * a ||| b * 2 ^ 26 := by rw [mul_comm]
      _ = 2 ^ 38 * a + b * 2 ^ 26 := (Nat.mul_add_lt_is_or hlt a).symm
      _ = a * 2 ^ 38 + b * 2 ^ 26 := by ring
  rw [h1, show a * 2 ^ 38 + b * 2 ^ 26 = 2 ^ 26 * (2 ^ 12 * a + b) from by ring]
  exact (Nat.mul_add_lt_is_or hc (2 ^ 12 * a + b)).symm

/-- C3 (amended): for x and z in signed 26-bit range and y in the unsigned
12-bit range 0..4095, decoding the packed word produced by encoding
(x, y, z) returns exactly (x, y, z); x and z are sign-extended on decode,
while y is decoded as an unsigned 12-bit field. -/
theorem block_position_roundtrip (x y z : Int)
    (hx : -(2 ^ 25) ≤ x ∧ x < 2 ^ 25) (hy : 0 ≤ y ∧ y < 2 ^ 12)
    (hz : -(2 ^ 25) ≤ z ∧ z < 2 ^ 25) :
    try_get_block_position (put_block_position ⟨x, y, z⟩) = .ok (⟨x, y, z⟩, []) := by
  obtain ⟨hx1, hx2⟩ := hx
  obtain ⟨hy1, hy2⟩ := hy
  obtain ⟨hz1, hz2⟩ := hz
  have hword := blockPosWord_eq x y z
  set a := (x % (2 : Int) ^ 26).toNat with hadef
  set b := (y % (2 : Int) ^ 12).toNat with hbdef
  set c := (z % (2 : Int) ^ 26).toNat with hcdef
  have hxa : (a : Int) = x % 2 ^ 26 :=
    Int.toNat_of_nonneg (Int.emod_nonneg x (by positivity))
  have hyb : (b : Int) = y % 2 ^ 12 :=
    Int.toNat_of_nonneg (Int.emod_nonneg y (by positivity))
  have hzc : (c : Int) = z % 2 ^ 26 :=
    Int.toNat_of_nonneg (Int.emod_nonneg z (by positivity))
  have ha : a < 2 ^ 26 := by omega
  have hb : b < 2 ^ 12 := by omega
  have hc : c < 2 ^ 26 := by omega
  set w := blockPosWord ⟨x, y, z⟩ with hwdef
  have hwlt : w < 2 ^ 64 := by omega
  have hlen : (put_block_position ⟨x, y, z⟩).length = 8 := beBytes_length 8 w
  have htake : (put_block_position ⟨x, y, z⟩).take 8 = put_block_position ⟨x, y, z⟩ :=
    List.take_of_length_le (le_of_eq hlen)
  have hdrop : (put_block_position ⟨x, y, z⟩).drop 8 = [] :=
    List.drop_eq_nil_of_le (le_of_eq hlen)
  have hparse : beParse (put_block_position ⟨x, y, z⟩) = w := beParse_beBytes hwlt
  have hget : try_get_i64 (put_block_position ⟨x, y, z⟩) = .ok (toI64 w, []) := by
    rw [try_get_i64, if_pos (le_of_eq hlen.symm), htake, hparse, hdrop]
  rw [try_get_block_position, hget]
  simp only [bind, Except.bind, pure, Except.pure]
  set W := toI64 w with hWdef
  have hWval : (w < 2 ^ 63 ∧ W = (w : Int)) ∨ (2 ^ 63 ≤ w ∧ W = (w : Int) - 2 ^ 64) := by
    rw [hWdef]
    unfold toI64
    rw [Nat.mod_eq_of_lt hwlt]
    split
    · next h => exact Or.inl ⟨h, rfl⟩
    · next h => exact Or.inr ⟨by omega, rfl⟩
  have hwcast : (w : Int) = (a : Int) * 2 ^ 38 + (b : Int) * 2 ^ 26 + (c : Int) := by
    rw [hword]; push_cast; ring
  have hxdec : W >>> (38 : Nat) = x := by
    rw [int_shiftRight_eq_ediv]
    rcases hWval with ⟨hlt, hW⟩ | ⟨hge, hW⟩ <;> rw [hW] <;> omega
  have hydec : (W >>> (26 : Nat)) % 4096 = y := by
    rw [int_shiftRight_eq_ediv]
    rcases hWval with ⟨hlt, hW⟩ | ⟨hge, hW⟩ <;> rw [hW] <;> omega
  have hzdec : toI64 (u64OfInt (W * 2 ^ 38)) >>> (38 : Nat) = z := by
    set u := u64OfInt (W * 2 ^ 38) with hudef
    have hu : (u : Int) = (W * 2 ^ 38) % 2 ^ 64 := by
      rw [hudef]
      unfold u64OfInt
      exact Int.toNat_of_nonneg (Int.emod_nonneg _ (by positivity))
    have hult : u < 2 ^ 64 := by
      have := Int.emod_lt_of_pos (W * 2 ^ 38) (show (0 : Int) < 2 ^ 64 by positivity)
      omega
    have hT : (u < 2 ^ 63 ∧ toI64 u = (u : Int)) ∨ (2 ^ 63 ≤ u ∧ toI64 u = (u : Int) - 2 ^ 64) := by
      unfold toI64
      rw [Nat.mod_eq_of_lt hult]
      split
      · next h => exact Or.inl ⟨h, rfl⟩
      · next h => exact Or.inr ⟨by omega, rfl⟩
    rw [int_shiftRight_eq_ediv]
    rcases hT with ⟨hlt, hTe⟩ | ⟨hge, hTe⟩ <;> rw [hTe] <;>
      rcases hWval with ⟨hwl, hW⟩ | ⟨hwg, hW⟩ <;> rw [hW] at hu <;> omega
  have hxs : asI32 x = x := asI32_small (by omega) (by omega)
  have hys : asI32 y = y := asI32_small (by omega) (by omega)
  have hzs : asI32 z = z := asI32_small (by omega) (by omega)
  rw [hxdec, hydec, hzdec, hxs, hys, hzs]

set_option maxRecDepth 100000 in
/-- C3 counterexample: the y field is not sign-extended on decode.
Encoding (0, -1, 0) and decoding the result yields (0, 4095, 0), not
(0, -1, 0). -/
theorem block_position_negative_y_counterexample :
    try_get_block_position (put_block_position ⟨0, -1, 0⟩) = .ok (⟨0, 4095, 0⟩, []) ∧
    ((⟨0, 4095, 0⟩ : BlockPosition) ≠ ⟨0, -1, 0⟩) :=
  ⟨by rfl, by decide⟩

/-- Witness for the block-position round-trip at the range boundaries. -/
theorem block_position_roundtrip_witness :
    try_get_block_position (put_block_position ⟨-(2 ^ 25), 4095, 2 ^ 25 - 1⟩) =
      .ok (⟨-(2 ^ 25), 4095, 2 ^ 25 - 1⟩, []) :=
  block_position_roundtrip (-(2 ^ 25)) 4095 (2 ^ 25 - 1)
    (by constructor <;> norm_num) (by constructor <;> norm_num)
    (by constructor <;> norm_num)

/-- The encoder `put_bool` of `mctypes.rs`: one byte, 1 for true, 0 for
false. -/
def put_bool (b : Bool) : List Nat := if b then [1] else [0]

/-- The decoder `try_get_bool` of `mctypes.rs`. -/
def try_get_bool : List Nat → Except McTypeError (Bool × List Nat)
  | [] => .error .notEnoughBytes
  | 0 :: rest => .ok (false, rest)
  | 1 :: rest => .ok (true, rest)
  | v :: _ => .error (.invalidBoolean v)

/-- The decoder `try_get_uuid` of `mctypes.rs`, exactly as the source
behaves: a 16-byte zero buffer `bytes` is allocated, and
`try_copy_to_slice` fills it with the next 16 bytes when at least 16
remain (the source names the destination `dst`, a slip for the only
16-byte buffer in scope, `bytes`).  The error the copy returns on a short
cursor is mapped to `NotEnoughBytes` but then discarded — the statement
lacks the propagation `?` — so the function returns `Ok` in both cases,
with the buffer still zero-filled when the copy failed. -/
def try_get_uuid (bs : List Nat) : Except McTypeError (List Nat × List Nat) :=
  let bytes := List.replicate 16 0
  if 16 ≤ bs.length then .ok (bs.take 16, bs.drop 16)
  else .ok (bytes, bs)

/-- The `ItemStack` struct of `feather_core::inventory`: the item type is
represented by its native protocol id (the `Item` enum lives in the
external `feather_items` crate and enters the codec only through
`native_protocol_id`), and the stack size is a `u8`. -/
structure ItemStack where
  ty : Int
  amount : Nat
deriving DecidableEq, Repr

/-- The encoder `put_slot` of `mctypes.rs`, exactly as the source behaves:
the presence boolean and, when present, the item-type VarInt id are
written to the output buffer, but the following two calls are
`slot.put_i8(slot.amount as i8)` and `slot.put_u8(0x00)` — their receiver
is the item stack `slot`, not the buffer `self` (`ItemStack` is not a byte
buffer, so the source does not even compile) — hence the count byte and
the TAG_End terminator never reach the output buffer. -/
def put_slot (slot : Option ItemStack) : Option (List Nat) :=
  match slot with
  | none => some (put_bool false)
  | some s => (put_var_int s.ty).map (fun id => put_bool true ++ id)

/-- Modelled from the spec: `encode_optional_item_slot` of §4.1 — a
presence boolean followed, if present, by the item-type VarInt id, the
signed count byte and the empty terminator placeholder `0x00` for future
item metadata, all appended to the output buffer. -/
def put_slot_intended (slot : Option ItemStack) : Option (List Nat) :=
  match slot with
  | none => some (put_bool false)
  | some s => (put_var_int s.ty).map (fun id => put_bool true ++ id ++ [s.amount % 256, 0])

/-- The encoder `put_string` of `mctypes.rs`: the byte length cast
`as i32` and written as a VarInt, then the string's UTF-8 bytes (a string
is modelled as its byte list). -/
def put_string (s : List Nat) : Option (List Nat) :=
  (put_var_int (toI32 s.length)).map (fun l => l ++ s)

/-- The byte loop of `try_get_string`: `len` bytes read one at a time
(`NotEnoughBytes` as soon as the cursor is exhausted), each pushed onto
the result as the character with that code point (`result.push(c as
char)`), so the decoded string is modelled as its code-point list. -/
def readStringLoop : Nat → List Nat → Except McTypeError (List Nat × List Nat)
  | 0, bs => .ok ([], bs)
  | _ + 1, [] => .error .notEnoughBytes
  | n + 1, c :: bs => (readStringLoop n bs).map (fun p => (c :: p.1, p.2))

/-- The decoder `try_get_string` of `mctypes.rs`: a VarInt length cast
`as usize` (wrapping two's complement to 64 bits), rejected with
`StringTooLong` when above 65536, then the byte-reading loop. -/
def try_get_string (bs : List Nat) : Except McTypeError (List Nat × List Nat) := do
  let (v, rest) ← try_get_var_int bs
  let len : Nat := u64OfInt v
  if 65536 < len then .error (.stringTooLong len 65536)
  else readStringLoop len rest

/-- Reading exactly the leading bytes of a split cursor returns them and
leaves the remainder. -/
lemma readStringLoop_append : ∀ (p r : List Nat), readStringLoop p.length (p ++ r) = .ok (p, r) := by
  intro p
  induction p with
  | nil => intro r; rfl
  | cons c rest ih =>
    intro r
    simp only [List.length_cons, List.cons_append, readStringLoop]
    rw [show rest.append r = rest ++ r from rfl, ih r]
    rfl

/-- C4: the claim is right and the code is wrong — on a cursor holding
fewer than 16 bytes, `try_get_uuid` does not fail with `NotEnoughBytes`:
the discarded copy result makes it succeed with a silently zero-filled
UUID (shown on the empty cursor and a 15-byte cursor), and on no input
does it ever return an error. -/
theorem try_get_uuid_zero_fill_bug :
    try_get_uuid [] = .ok (List.replicate 16 0, []) ∧
    try_get_uuid (List.replicate 15 7) = .ok (List.replicate 16 0, List.replicate 15 7) ∧
    ∀ bs e, try_get_uuid bs ≠ .error e := by
  refine ⟨rfl, by rfl, ?_⟩
  intro bs e
  unfold try_get_uuid
  split <;> intro h <;> cases h

/-- C7: the claim describes the intended slot encoding, and the code is
wrong — as written, `put_slot` appends only the presence boolean and the
item-type VarInt id for a present stack (id 1, amount 64 produces the two
bytes 0x01 0x01), while the spec-modelled intended encoder also appends
the signed count byte and the empty terminator placeholder; for an absent
slot both write only the false boolean. -/
theorem put_slot_misdirected_writes_bug :
    put_slot (some ⟨1, 64⟩) = some [1, 1] ∧
    put_slot_intended (some ⟨1, 64⟩) = some [1, 1, 64, 0] ∧
    put_slot none = some [0] ∧ put_slot_intended none = some [0] :=
  ⟨rfl, rfl, rfl, rfl⟩

/-- C8: whenever the VarInt length prefix decodes to a value whose
`as usize` cast is within the 65536 maximum and that many payload bytes
are available, `try_get_string` succeeds and returns exactly the raw
payload bytes as the string's code points — no byte sequence is ever
rejected as invalid UTF-8, and the i-th character's code point is the
i-th payload byte. -/
theorem try_get_string_preserves_bytes (bs payload rest : List Nat) (v : Int)
    (hv : try_get_var_int bs = .ok (v, payload ++ rest))
    (hlen : u64OfInt v = payload.length) (hmax : payload.length ≤ 65536) :
    try_get_string bs = .ok (payload, rest) := by
  rw [try_get_string, hv]
  simp only [bind, Except.bind, hlen]
  rw [if_neg (by omega)]
  exact readStringLoop_append payload rest

/-- Witness for the string decode: a 3-byte payload that is invalid UTF-8
(0xFF 0xFE 0x80) decodes successfully and byte-transparently. -/
theorem try_get_string_preserves_bytes_witness :
    try_get_string [3, 255, 254, 128] = .ok ([255, 254, 128], []) :=
  try_get_string_preserves_bytes [3, 255, 254, 128] [255, 254, 128] [] 3 rfl (by decide)
    (by decide)

/-- The constant `MAX_VAR_INT_SIZE` of `mctypes.rs`. -/
def MAX_VAR_INT_SIZE : Nat := 5

/-- The encoder `put_uuid` of `mctypes.rs`: the sixteen raw big-endian
bytes of the 128-bit UUID value. -/
def put_uuid (u : Nat) : List Nat := beBytes 16 u

/-- The `Direction` enum of `entitymeta.rs`. -/
inductive Direction
  | down
  | up
  | north
  | south
  | west
  | east
deriving DecidableEq, Repr

/-- `Direction::id` of `entitymeta.rs`. -/
def Direction.id : Direction → Int
  | .down => 0
  | .up => 1
  | .north => 2
  | .south => 3
  | .west => 4
  | .east => 5

/-- The `MetaEntry` tagged union of `entitymeta.rs`.  An `f32` payload is
carried as its raw 32-bit pattern (the codec only moves its bytes), a
string or chat payload as its byte list, and a UUID as its 128-bit
pattern. -/
inductive MetaEntry
  | byte (x : Int)
  | varInt (x : Int)
  | float (bits : Nat)
  | string (s : List Nat)
  | chat (s : List Nat)
  | optChat (o : Option (List Nat))
  | slot
  | boolean (b : Bool)
  | rotation (p q r : Nat)
  | position (p : BlockPosition)
  | optPosition (o : Option BlockPosition)
  | direction (d : Direction)
  | optUuid (o : Option Nat)
  | optBlockId (o : Option Int)
  | nbt
  | particle
deriving DecidableEq, Repr

/-- `MetaEntry::id` of `entitymeta.rs`: the numeric type tag. -/
def MetaEntry.id : MetaEntry → Int
  | .byte _ => 0
  | .varInt _ => 1
  | .float _ => 2
  | .string _ => 3
  | .chat _ => 4
  | .optChat _ => 5
  | .slot => 6
  | .boolean _ => 7
  | .rotation _ _ _ => 8
  | .position _ => 9
  | .optPosition _ => 10
  | .direction _ => 11
  | .optUuid _ => 12
  | .optBlockId _ => 13
  | .nbt => 14
  | .particle => 15

/-- `MetaEntry::size` of `entitymeta.rs`: the worst-case payload size per
variant; the `unimplemented!()` panics for `Nbt` and `Particle` are
`none`. -/
def MetaEntry.size : MetaEntry → Option Nat
  | .byte _ => some 1
  | .varInt _ => some MAX_VAR_INT_SIZE
  | .float _ => some 4
  | .string s => some (MAX_VAR_INT_SIZE + s.length)
  | .chat s => some (MAX_VAR_INT_SIZE + s.length)
  | .optChat (some s) => some (MAX_VAR_INT_SIZE + s.length)
  | .optChat none => some MAX_VAR_INT_SIZE
  | .slot => some (MAX_VAR_INT_SIZE + 3)
  | .boolean _ => some 1
  | .rotation _ _ _ => some 12
  | .position _ => some 8
  | .optPosition _ => some 9
  | .direction _ => some MAX_VAR_INT_SIZE
  | .optUuid _ => some 17
  | .optBlockId _ => some MAX_VAR_INT_SIZE
  | .nbt => none
  | .particle => none

/-- The `i32` typing constraint the Rust type system imposes on the
`VarInt`-carrying payloads of a `MetaEntry` (the other payloads need no
constraint for the claims proved here). -/
def MetaEntry.wf : MetaEntry → Prop
  | .varInt x => -(2 ^ 31) ≤ x ∧ x < 2 ^ 31
  | .optBlockId (some x) => -(2 ^ 31) ≤ x ∧ x < 2 ^ 31
  | _ => True

/-- `write_entry_to_buf` of `entitymeta.rs`: the bytes the type-specific
payload write appends to the buffer; `none` models the
`unimplemented!()` panics (`Slot`, `Nbt`, `Particle`) and a diverging
`put_var_int`. -/
def write_entry_to_buf : MetaEntry → Option (List Nat)
  | .byte x => some [(x % 256).toNat]
  | .varInt x => put_var_int x
  | .float bits => some (beBytes 4 bits)
  | .string s => put_string s
  | .chat s => put_string s
  | .optChat (some s) => (put_string s).map (fun l => put_bool true ++ l)
  | .optChat none => some (put_bool false)
  | .slot => none
  | .boolean b => some (put_bool b)
  | .rotation p q r => some (beBytes 4 p ++ beBytes 4 q ++ beBytes 4 r)
  | .position p => some (put_block_position p)
  | .optPosition (some p) => some (put_bool true ++ put_block_position p)
  | .optPosition none => some (put_bool false)
  | .direction d => put_var_int d.id
  | .optUuid (some u) => some (put_bool true ++ put_uuid u)
  | .optUuid none => some (put_bool false)
  | .optBlockId (some x) => put_var_int x
  | .optBlockId none => put_var_int 0
  | .nbt => none
  | .particle => none

/-- The `EntityMetadata` collection of `entitymeta.rs`: its
`HashMap<u8, MetaEntry>` is modelled as the association list of its
entries in the (implementation-defined) order the source's iteration
visits them. -/
structure EntityMetadata where
  values : List (Fin 256 × MetaEntry)

/-- `EntityMetadata::size` of `entitymeta.rs`: a count starting at 1 (the
end marker), adding `1 + MAX_VAR_INT_SIZE + entry.size()` per entry. -/
def EntityMetadata.size (m : EntityMetadata) : Option Nat :=
  m.values.foldlM
    (fun count p => (MetaEntry.size p.2).map (fun s => count + (1 + MAX_VAR_INT_SIZE + s))) 1

/-- The entry loop of `put_metadata` in `entitymeta.rs`: for each entry in
iteration order, the index byte, the VarInt type tag and the
type-specific payload. -/
def putMetadataLoop : List (Fin 256 × MetaEntry) → Option (List Nat)
  | [] => some []
  | p :: rest => do
    let tag ← put_var_int (MetaEntry.id p.2)
    let body ← write_entry_to_buf p.2
    let more ← putMetadataLoop rest
    pure ((p.1.val :: (tag ++ body)) ++ more)

/-- `put_metadata` of `entitymeta.rs`: the entry records followed by the
sentinel byte `0xff`. -/
def put_metadata (m : EntityMetadata) : Option (List Nat) :=
  (putMetadataLoop m.values).map (fun l => l ++ [0xff])

/-- C9: `write_entry_to_buf` encodes an absent optional block-type
reference exactly as it encodes the present reference id 0 — both are the
single VarInt byte 0 on the wire, so the two cases are indistinguishable. -/
theorem opt_block_id_absent_eq_zero :
    write_entry_to_buf (.optBlockId none) = write_entry_to_buf (.optBlockId (some 0)) ∧
    write_entry_to_buf (.optBlockId none) = some [0] :=
  ⟨rfl, rfl⟩

/-- Decomposition of the metadata entry loop's output into one record per
entry, each beginning with that entry's index byte. -/
lemma putMetadataLoop_records :
    ∀ (l : List (Fin 256 × MetaEntry)) (bs : List Nat), putMetadataLoop l = some bs →
      ∃ recs : List (List Nat), bs = recs.flatten ∧
        List.Forall₂ (fun (r : List Nat) (p : Fin 256 × MetaEntry) =>
          ∃ hr : r ≠ [], r.head hr = (p.1 : Nat)) recs l := by
  intro l
  induction l with
  | nil =>
    intro bs h
    cases h
    exact ⟨[], rfl, List.Forall₂.nil⟩
  | cons p rest ih =>
    intro bs h
    rcases htag : put_var_int (MetaEntry.id p.2) with _ | tag
    · rw [putMetadataLoop, htag] at h; cases h
    rcases hbody : write_entry_to_buf p.2 with _ | body
    · rw [putMetadataLoop, htag, hbody] at h; cases h
    rcases hmore : putMetadataLoop rest with _ | more
    · rw [putMetadataLoop, htag, hbody, hmore] at h; cases h
    rw [putMetadataLoop, htag, hbody, hmore] at h
    have hbs : bs = (p.1.val :: (tag ++ body)) ++ more := by
      cases h; rfl
    obtain ⟨recs, hflat, hall⟩ := ih more hmore
    refine ⟨(p.1.val :: (tag ++ body)) :: recs, ?_, ?_⟩
    · simp [hbs, hflat]
    · exact List.Forall₂.cons ⟨by simp, rfl⟩ hall

/-- When every index in the paired list is below 255, every record head is
not the sentinel byte. -/
lemma records_head_ne_sentinel {recs : List (List Nat)} {l : List (Fin 256 × MetaEntry)}
    (hf : List.Forall₂ (fun (r : List Nat) (p : Fin 256 × MetaEntry) =>
      ∃ hr : r ≠ [], r.head hr = (p.1 : Nat)) recs l)
    (hidx : ∀ p ∈ l, (p.1 : Nat) < 255) :
    ∀ r ∈ recs, ∀ hr : r ≠ [], r.head hr ≠ 255 := by
  induction hf with
  | nil => intro r hr; cases hr
  | @cons r p recs' l' hhead _ ih =>
    intro s hs hsne
    rcases List.mem_cons.mp hs with hseq | hsm
    · subst hseq
      obtain ⟨hne, hH⟩ := hhead
      rw [hH]
      have := hidx p (by simp)
      omega
    · exact ih (fun q hq => hidx q (by simp [hq])) s hsm hsne

/-- C5: whenever `put_metadata` produces a byte stream for a collection
whose indices are all valid (below 255, the documented index range), the
stream decomposes into one record per entry followed by the sentinel: the
final byte is `0xFF`, each record starts with its entry's index byte, and
no record's index byte is `0xFF`, so the sentinel cannot collide with an
index. -/
theorem put_metadata_sentinel (m : EntityMetadata)
    (hidx : ∀ p ∈ m.values, (p.1 : Nat) < 255) (bs : List Nat)
    (henc : put_metadata m = some bs) :
    ∃ recs : List (List Nat),
      bs = recs.flatten ++ [255] ∧
      List.Forall₂ (fun (r : List Nat) (p : Fin 256 × MetaEntry) =>
        ∃ hr : r ≠ [], r.head hr = (p.1 : Nat)) recs m.values ∧
      ∀ r ∈ recs, ∀ hr : r ≠ [], r.head hr ≠ 255 := by
  rcases hloop : putMetadataLoop m.values with _ | l
  · rw [put_metadata, hloop] at henc; cases henc
  rw [put_metadata, hloop] at henc
  have hbs : bs = l ++ [255] := by cases henc; rfl
  obtain ⟨recs, hflat, hall⟩ := putMetadataLoop_records m.values l hloop
  exact ⟨recs, by rw [hbs, hflat], hall, records_head_ne_sentinel hall hidx⟩

/-- Witness for the sentinel theorem: one byte entry at index 0 encodes to
0x00 0x00 0x05 0xFF. -/
theorem put_metadata_sentinel_witness :
    ∃ recs : List (List Nat),
      ([0, 0, 5, 255] : List Nat) = recs.flatten ++ [255] ∧
      List.Forall₂ (fun (r : List Nat) (p : Fin 256 × MetaEntry) =>
        ∃ hr : r ≠ [], r.head hr = (p.1 : Nat)) recs [((0 : Fin 256), MetaEntry.byte 5)] ∧
      ∀ r ∈ recs, ∀ hr : r ≠ [], r.head hr ≠ 255 :=
  put_metadata_sentinel ⟨[((0 : Fin 256), MetaEntry.byte 5)]⟩ (by decide) [0, 0, 5, 255] rfl

/-- The `as i32` value of a `usize` is always below 2^31. -/
lemma toI32_lt (n : Nat) : toI32 n < 2 ^ 31 := by
  unfold toI32
  split <;> omega

/-- A successful run of the `put_var_int` loop on a nonnegative value
writes at least one byte, and each byte beyond the first certifies that
the value is at least the corresponding power of 128. -/
lemma putVarIntLoop_length_lb :
    ∀ (fuel : Nat) (x : Int) (l : List Nat), 0 ≤ x → putVarIntLoop fuel x = some l →
      1 ≤ l.length ∧ (l.length = 1 ∨ ((2 : Int) ^ (7 * (l.length - 1))) ≤ x) := by
  intro fuel
  induction fuel with
  | zero => intro x l _ h; cases h
  | succ f ih =>
    intro x l hx h
    rw [putVarIntLoop] at h
    by_cases hz : x >>> (7 : Nat) = 0
    · rw [if_pos hz] at h
      cases h
      exact ⟨by simp, Or.inl rfl⟩
    · rw [if_neg hz] at h
      rcases hrec : putVarIntLoop f (x >>> (7 : Nat)) with _ | rest
      · rw [hrec] at h; cases h
      · rw [hrec] at h
        have hx' : (0 : Int) ≤ x >>> (7 : Nat) := by
          rcases Int.lt_or_le (x >>> (7 : Nat)) 0 with hlt | hle
          · exact absurd hrec (by rw [putVarIntLoop_neg_eq_none f _ hlt]; intro hc; cases hc)
          · exact hle
        obtain ⟨h1, h2⟩ := ih _ rest hx' hrec
        have hdiv : x >>> (7 : Nat) = x / 128 := by
          rw [int_shiftRight_eq_ediv]; norm_num
        have hl : l = ((x % 128).toNat ||| 128) :: rest := by cases h; rfl
        subst hl
        refine ⟨by simp, Or.inr ?_⟩
        simp only [List.length_cons, Nat.add_sub_cancel]
        rw [hdiv] at hz hx'
        rcases h2 with h2 | h2
        · rw [h2]
          norm_num
          omega
        · set X : Int := (2 : Int) ^ (7 * (rest.length - 1)) with hX
          have hsplit : (2 : Int) ^ (7 * rest.length) = X * 128 := by
            rw [hX, show 7 * rest.length = 7 * (rest.length - 1) + 7 by omega, pow_add]
            norm_num
          rw [hdiv] at h2
          rw [hsplit]
          omega

/-- A terminating `put_var_int` on a value below 2^31 writes between one
and five bytes. -/
lemma put_var_int_length_le_five {x : Int} {l : List Nat} (hx : x < 2 ^ 31)
    (h : put_var_int x = some l) : l.length ≤ 5 ∧ 1 ≤ l.length := by
  have hx0 : 0 ≤ x := by
    rcases Int.lt_or_le x 0 with hlt | hle
    · rw [put_var_int] at h
      exact absurd h (by rw [putVarIntLoop_neg_eq_none 64 x hlt]; intro hc; cases hc)
    · exact hle
  obtain ⟨h1, h2⟩ := putVarIntLoop_length_lb 64 x l hx0 h
  refine ⟨?_, h1⟩
  by_contra hgt
  push_neg at hgt
  rcases h2 with h2 | h2
  · omega
  · have hpow : (2 : Int) ^ 35 ≤ 2 ^ (7 * (l.length - 1)) :=
      pow_le_pow_right₀ (by norm_num) (by omega)
    have := le_trans hpow h2
    norm_num at this
    omega

/-- A successful `put_string` writes at most five length bytes plus the
payload. -/
lemma put_string_length {s l : List Nat} (h : put_string s = some l) :
    l.length ≤ 5 + s.length := by
  rcases hv : put_var_int (toI32 s.length) with _ | vl
  · rw [put_string, hv] at h; cases h
  · rw [put_string, hv] at h
    have := (put_var_int_length_le_five (toI32_lt _) hv).1
    cases h
    simp only [List.length_append]
    omega

/-- The type tag of every `MetaEntry` variant encodes as exactly one
VarInt byte. -/
lemma tag_length (e : MetaEntry) :
    ∃ t : List Nat, put_var_int (MetaEntry.id e) = some t ∧ t.length = 1 := by
  cases e <;> exact ⟨_, rfl, rfl⟩

/-- Per-entry bound: whenever a payload is actually written, the entry's
`size()` estimate falls short of the payload by at most one byte (the
optional-chat presence boolean is the only deficit). -/
lemma write_entry_size_bound (e : MetaEntry) (hwf : MetaEntry.wf e) (body : List Nat)
    (h : write_entry_to_buf e = some body) :
    ∃ se, MetaEntry.size e = some se ∧ body.length ≤ se + 1 := by
  cases e with
  | byte x =>
    simp only [write_entry_to_buf] at h
    cases h
    exact ⟨1, rfl, by simp⟩
  | varInt x =>
    simp only [write_entry_to_buf] at h
    have := (put_var_int_length_le_five hwf.2 h).1
    exact ⟨MAX_VAR_INT_SIZE, rfl, by simp only [MAX_VAR_INT_SIZE]; omega⟩
  | float bits =>
    simp only [write_entry_to_buf] at h
    cases h
    exact ⟨4, rfl, by simp [beBytes_length]⟩
  | string s =>
    simp only [write_entry_to_buf] at h
    have := put_string_length h
    exact ⟨MAX_VAR_INT_SIZE + s.length, rfl, by simp only [MAX_VAR_INT_SIZE]; omega⟩
  | chat s =>
    simp only [write_entry_to_buf] at h
    have := put_string_length h
    exact ⟨MAX_VAR_INT_SIZE + s.length, rfl, by simp only [MAX_VAR_INT_SIZE]; omega⟩
  | optChat o =>
    cases o with
    | none =>
      simp only [write_entry_to_buf] at h
      cases h
      exact ⟨MAX_VAR_INT_SIZE, rfl, by simp [put_bool, MAX_VAR_INT_SIZE]⟩
    | some s =>
      simp only [write_entry_to_buf] at h
      rcases hs : put_string s with _ | l
      · rw [hs] at h; cases h
      · rw [hs] at h
        have := put_string_length hs
        cases h
        refine ⟨MAX_VAR_INT_SIZE + s.length, rfl, ?_⟩
        simp only [MAX_VAR_INT_SIZE, put_bool, List.length_append, if_true]
        simp
        omega
  | slot => simp only [write_entry_to_buf] at h; cases h
  | boolean b =>
    simp only [write_entry_to_buf] at h
    cases h
    cases b <;> exact ⟨1, rfl, by simp [put_bool]⟩
  | rotation p q r =>
    simp only [write_entry_to_buf] at h
    cases h
    exact ⟨12, rfl, by simp [beBytes_length]⟩
  | position p =>
    simp only [write_entry_to_buf] at h
    cases h
    exact ⟨8, rfl, by simp [put_block_position, beBytes_length]⟩
  | optPosition o =>
    cases o with
    | none =>
      simp only [write_entry_to_buf] at h
      cases h
      exact ⟨9, rfl, by simp [put_bool]⟩
    | some p =>
      simp only [write_entry_to_buf] at h
      cases h
      exact ⟨9, rfl, by simp [put_bool, put_block_position, beBytes_length]⟩
  | direction d =>
    simp only [write_entry_to_buf] at h
    have hlt : Direction.id d < 2 ^ 31 := by cases d <;> norm_num [Direction.id]
    have := (put_var_int_length_le_five hlt h).1
    exact ⟨MAX_VAR_INT_SIZE, rfl, by simp only [MAX_VAR_INT_SIZE]; omega⟩
  | optUuid o =>
    cases o with
    | none =>
      simp only [write_entry_to_buf] at h
      cases h
      exact ⟨17, rfl, by simp [put_bool]⟩
    | some u =>
      simp only [write_entry_to_buf] at h
      cases h
      exact ⟨17, rfl, by simp [put_bool, put_uuid, beBytes_length]⟩
  | optBlockId o =>
    cases o with
    | none =>
      simp only [write_entry_to_buf] at h
      have hlt : (0 : Int) < 2 ^ 31 := by norm_num
      have := (put_var_int_length_le_five hlt h).1
      exact ⟨MAX_VAR_INT_SIZE, rfl, by simp only [MAX_VAR_INT_SIZE]; omega⟩
    | some x =>
      simp only [write_entry_to_buf] at h
      have := (put_var_int_length_le_five hwf.2 h).1
      exact ⟨MAX_VAR_INT_SIZE, rfl, by simp only [MAX_VAR_INT_SIZE]; omega⟩
  | nbt => simp only [write_entry_to_buf] at h; cases h
  | particle => simp only [write_entry_to_buf] at h; cases h

/-- Accumulated size bound for the metadata entry loop: a successful
encode of the remaining entries is bounded by the source's size fold from
any starting count. -/
lemma putMetadataLoop_size_bound :
    ∀ (l : List (Fin 256 × MetaEntry)), (∀ p ∈ l, MetaEntry.wf p.2) →
      ∀ out, putMetadataLoop l = some out →
      ∀ acc : Nat,
        ∃ n, l.foldlM (fun count p => (MetaEntry.size p.2).map
            (fun s => count + (1 + MAX_VAR_INT_SIZE + s))) acc = some n ∧
          acc + out.length ≤ n := by
  intro l
  induction l with
  | nil =>
    intro _ out h acc
    cases h
    exact ⟨acc, rfl, by simp⟩
  | cons p rest ih =>
    intro hwf out h acc
    rcases htag : put_var_int (MetaEntry.id p.2) with _ | tag
    · rw [putMetadataLoop, htag] at h; cases h
    rcases hbody : write_entry_to_buf p.2 with _ | body
    · rw [putMetadataLoop, htag, hbody] at h; cases h
    rcases hmore : putMetadataLoop rest with _ | more
    · rw [putMetadataLoop, htag, hbody, hmore] at h; cases h
    rw [putMetadataLoop, htag, hbody, hmore] at h
    have hout : out = (p.1.val :: (tag ++ body)) ++ more := by cases h; rfl
    obtain ⟨se, hse, hble⟩ := write_entry_size_bound p.2 (hwf p (by simp)) body hbody
    obtain ⟨t, ht, htl⟩ := tag_length p.2
    have htag1 : tag.length = 1 := by rw [htag] at ht; cases ht; exact htl
    obtain ⟨n, hn, hle⟩ :=
      ih (fun q hq => hwf q (by simp [hq])) more hmore (acc + (1 + MAX_VAR_INT_SIZE + se))
    refine ⟨n, ?_, ?_⟩
    · rw [List.foldlM_cons, hse]
      simpa using hn
    · subst hout
      simp only [List.length_append, List.length_cons, List.length_append,
        MAX_VAR_INT_SIZE] at hle ⊢
      omega

/-- C6: whenever `put_metadata` actually produces a byte stream, the
source's size estimate is defined and is at least the stream's length:
the four bytes of slack in the per-entry tag estimate (`MAX_VAR_INT_SIZE`
for a tag that always encodes in one byte) absorb the one-byte deficit of
the optional-chat estimate, and every other variant is bounded by its own
estimate. -/
theorem metadata_size_bounds_encoding (m : EntityMetadata)
    (hwf : ∀ p ∈ m.values, MetaEntry.wf p.2) (bs : List Nat)
    (henc : put_metadata m = some bs) :
    ∃ n, EntityMetadata.size m = some n ∧ bs.length ≤ n := by
  rcases hloop : putMetadataLoop m.values with _ | l
  · rw [put_metadata, hloop] at henc; cases henc
  rw [put_metadata, hloop] at henc
  have hbs : bs = l ++ [255] := by cases henc; rfl
  obtain ⟨n, hn, hle⟩ := putMetadataLoop_size_bound m.values hwf l hloop 1
  refine ⟨n, hn, ?_⟩
  subst hbs
  simp only [List.length_append, List.length_cons, List.length_nil]
  omega

/-- Witness for the size bound: one byte entry at index 0 encodes to four
bytes while the estimate is eight. -/
theorem metadata_size_bounds_encoding_witness :
    ∃ n, EntityMetadata.size ⟨[((0 : Fin 256), MetaEntry.byte 5)]⟩ = some n ∧
      ([0, 0, 5, 255] : List Nat).length ≤ n :=
  metadata_size_bounds_encoding ⟨[((0 : Fin 256), MetaEntry.byte 5)]⟩
    (by intro p hp; simp only [List.mem_singleton] at hp; subst hp; trivial) [0, 0, 5, 255] rfl

/-- Modelled from the spec: the registration record of §3 (declared as
`NewClientInfo` in `io/mod.rs`): the peer's chosen display name and the
channel endpoint pair handed to the server loop.  Channels are identified
by ids; an endpoint pair is "working" when its two endpoints name the
same underlying channel. -/
structure NewClientInfo where
  username : String
  senderChannel : Nat
  receiverChannel : Nat
deriving DecidableEq, Repr

/-- Modelled from the spec: the worker states of §4.3,
`Accepted → Handshaking → Registered → Relaying → Closed` with the
absorbing `Errored` state.  The transition structure is taken from §4.3
and the `worker.rs` module documentation: `handle_connection` in the
provided sources only constructs the `Client` value, and the
handshake-completion path that produces the registration message (the
`initialhandler` module) is absent from the sources. -/
inductive WorkerState
  | accepted
  | handshaking
  | registered
  | relaying
  | closed
  | errored
deriving DecidableEq, Repr

/-- Observable events of a worker: the registration message sent to the
server loop, and packet forwarding during relaying. -/
inductive WorkerEvent
  | sendNewClient (info : NewClientInfo)
  | forwardPacket
deriving DecidableEq, Repr

/-- Modelled from the spec: one worker transition of §4.3.  The
registration message is emitted on exactly one edge — the successful
handshake completion into `Registered` — and carries the handshake's
chosen name together with a freshly created channel pair whose two
endpoints name the same channel.  Every non-terminal state may fail into
`Errored`, which only closes. -/
inductive WorkerStep : WorkerState → Option WorkerEvent → WorkerState → Prop
  | beginHandshake : WorkerStep .accepted none .handshaking
  | handshakeSuccess (name : String) (ch : Nat) :
      WorkerStep .handshaking (some (.sendNewClient ⟨name, ch, ch⟩)) .registered
  | beginRelaying : WorkerStep .registered none .relaying
  | relayPacket : WorkerStep .relaying (some .forwardPacket) .relaying
  | closeFromRelaying : WorkerStep .relaying none .closed
  | errorFromAccepted : WorkerStep .accepted none .errored
  | errorFromHandshaking : WorkerStep .handshaking none .errored
  | errorFromRegistered : WorkerStep .registered none .errored
  | errorFromRelaying : WorkerStep .relaying none .errored
  | closeFromErrored : WorkerStep .errored none .closed

/-- A run of the worker machine, recording the emitted events. -/
inductive WorkerTrace : WorkerState → List WorkerEvent → WorkerState → Prop
  | refl (s : WorkerState) : WorkerTrace s [] s
  | stepNone {s s' s'' : WorkerState} {t : List WorkerEvent} :
      WorkerStep s none s' → WorkerTrace s' t s'' → WorkerTrace s t s''
  | stepEvent {s s' s'' : WorkerState} {e : WorkerEvent} {t : List WorkerEvent} :
      WorkerStep s (some e) s' → WorkerTrace s' t s'' → WorkerTrace s (e :: t) s''

/-- The number of registration messages in an event list. -/
def registrations (t : List WorkerEvent) : Nat :=
  t.countP fun e => match e with
    | .sendNewClient _ => true
    | _ => false

/-- How many further registration messages a state may still emit. -/
def regBudget : WorkerState → Nat
  | .accepted => 1
  | .handshaking => 1
  | _ => 0

/-- Along any run, emitted registrations spend the budget, which never
replenishes. -/
lemma trace_reg_budget : ∀ {s t s'}, WorkerTrace s t s' →
    registrations t + regBudget s' ≤ regBudget s := by
  intro s t s' htr
  induction htr with
  | refl s => simp [registrations]
  | stepNone hstep _ ih =>
    cases hstep with
    | beginHandshake => simpa [regBudget] using ih
    | beginRelaying =>
      simp only [regBudget] at ih ⊢
      omega
    | closeFromRelaying => simpa [regBudget] using ih
    | errorFromAccepted =>
      simp only [regBudget] at ih ⊢
      omega
    | errorFromHandshaking =>
      simp only [regBudget] at ih ⊢
      omega
    | errorFromRegistered => simpa [regBudget] using ih
    | errorFromRelaying => simpa [regBudget] using ih
    | closeFromErrored => simpa [regBudget] using ih
  | stepEvent hstep _ ih =>
    cases hstep with
    | handshakeSuccess name ch =>
      have h1 : ∀ (i : NewClientInfo) (t' : List WorkerEvent),
          registrations (WorkerEvent.sendNewClient i :: t') = registrations t' + 1 := by
        intro i t'
        simp [registrations, List.countP_cons]
      have h2 : regBudget WorkerState.registered = 0 := rfl
      have h3 : regBudget WorkerState.handshaking = 1 := rfl
      rw [h1]
      omega
    | relayPacket =>
      have h1 : ∀ t' : List WorkerEvent,
          registrations (WorkerEvent.forwardPacket :: t') = registrations t' := by
        intro t'
        simp [registrations, List.countP_cons]
      rw [h1]
      exact ih

/-- A run that ends registered or relaying either started there or emitted
a registration. -/
lemma trace_reached_registered : ∀ {s t s'}, WorkerTrace s t s' →
    (s' = .registered ∨ s' = .relaying) →
    (s = .registered ∨ s = .relaying) ∨ 1 ≤ registrations t := by
  intro s t s' htr
  induction htr with
  | refl s => exact fun h => Or.inl h
  | stepNone hstep _ ih =>
    intro h
    rcases ih h with hmid | hreg
    · cases hstep with
      | beginRelaying => exact Or.inl (Or.inl rfl)
      | beginHandshake => rcases hmid with h' | h' <;> cases h'
      | closeFromRelaying => rcases hmid with h' | h' <;> cases h'
      | errorFromAccepted => rcases hmid with h' | h' <;> cases h'
      | errorFromHandshaking => rcases hmid with h' | h' <;> cases h'
      | errorFromRegistered => rcases hmid with h' | h' <;> cases h'
      | errorFromRelaying => rcases hmid with h' | h' <;> cases h'
      | closeFromErrored => rcases hmid with h' | h' <;> cases h'
    · exact Or.inr hreg
  | stepEvent hstep _ ih =>
    intro _
    cases hstep with
    | handshakeSuccess name ch =>
      right
      simp [registrations, List.countP_cons]
    | relayPacket => exact Or.inl (Or.inr rfl)

/-- Every registration message emitted along any run carries a working
channel pair: both endpoints name the same channel. -/
lemma trace_registration_channels : ∀ {s t s'}, WorkerTrace s t s' →
    ∀ info, WorkerEvent.sendNewClient info ∈ t →
      info.senderChannel = info.receiverChannel := by
  intro s t s' htr
  induction htr with
  | refl s => intro info h; cases h
  | stepNone _ _ ih => exact ih
  | stepEvent hstep _ ih =>
    intro info hmem
    rcases List.mem_cons.mp hmem with heq | hmem'
    · cases hstep with
      | handshakeSuccess name ch => cases heq; rfl
      | relayPacket => cases heq
    · exact ih info hmem'

/-- C10: along every run of an accepted connection's worker, the
registration message is sent to the server loop at most once; when the
handshake has completed successfully (the worker is registered or
relaying), it has been sent exactly once; and every registration message
carries the handshake's chosen name (by construction of the
`handshakeSuccess` edge, the only emitter) together with a working channel
endpoint pair. -/
theorem worker_registration_exactly_once (t : List WorkerEvent) (s' : WorkerState)
    (htr : WorkerTrace .accepted t s') :
    registrations t ≤ 1 ∧
    ((s' = .registered ∨ s' = .relaying) → registrations t = 1) ∧
    (∀ info, WorkerEvent.sendNewClient info ∈ t →
      info.senderChannel = info.receiverChannel) := by
  have hb := trace_reg_budget htr
  refine ⟨by simpa [regBudget] using Nat.le_trans (Nat.le_add_right _ _) hb, ?_,
    trace_registration_channels htr⟩
  intro h
  rcases trace_reached_registered htr h with hstart | hone
  · rcases hstart with h' | h' <;> cases h'
  · have hub : registrations t ≤ 1 := by
      simpa [regBudget] using Nat.le_trans (Nat.le_add_right _ _) hb
    omega

/-- Witness run: handshake completes with chosen name Steve over channel
0; exactly one registration message is emitted. -/
theorem worker_registration_exactly_once_witness :
    registrations [WorkerEvent.sendNewClient ⟨"Steve", 0, 0⟩] ≤ 1 ∧
    ((WorkerState.registered = WorkerState.registered ∨
        WorkerState.registered = WorkerState.relaying) →
      registrations [WorkerEvent.sendNewClient ⟨"Steve", 0, 0⟩] = 1) ∧
    (∀ info, WorkerEvent.sendNewClient info ∈ [WorkerEvent.sendNewClient ⟨"Steve", 0, 0⟩] →
      info.senderChannel = info.receiverChannel) :=
  worker_registration_exactly_once [WorkerEvent.sendNewClient ⟨"Steve", 0, 0⟩]
    WorkerState.registered
    (WorkerTrace.stepNone WorkerStep.beginHandshake
      (WorkerTrace.stepEvent (WorkerStep.handshakeSuccess "Steve" 0)
        (WorkerTrace.refl WorkerState.registered)))

end Feather
